import Mathlib

/-
Verification of the apt-versions package collector
(internal/packages.go): the version normalizer getVersion, the
line parser getPackages and the collector GetInstalledPackages.

Strings are embedded as lists of characters; Go string operations
(strings.Split, strings.Index, strings.IndexAny, slicing loops) are
translated into structurally recursive Lean functions.
-/

namespace AptPlugin

/-- Character-list representation of a Go string. -/
abbrev Str := List Char

/-- View a Lean string literal as its character list. -/
def strOf (s : String) : Str := s.data

/-- Translation of the Go test char >= '0' && char <= '9' used in getVersion. -/
def isDigit (c : Char) : Bool := decide ('0' ≤ c) && decide (c ≤ '9')

/-- Translation of strings.Split(s, sep) for a one-character separator:
splits at every occurrence of sep, keeping empty fields, and returns
the one-element list of s when sep does not occur (in particular
splitOnChar sep [] = [[]], as in Go). -/
def splitOnChar (sep : Char) : Str → List Str
  | [] => [[]]
  | c :: cs =>
    match splitOnChar sep cs with
    | [] => [[]]
    | r :: rs => if c = sep then [] :: r :: rs else (c :: r) :: rs

/-- Translation of the Go slice expression version[colonIndex+1:] where
colonIndex = strings.Index(version, ":"): drop everything up to and
including the first colon. -/
def dropThroughColon : Str → Str
  | [] => []
  | c :: cs => if c = ':' then cs else dropThroughColon cs

/-- Step 1 of getVersion: if the version contains a colon, keep only what
follows the first colon (epoch strip). -/
def stripEpoch (s : Str) : Str := if ':' ∈ s then dropThroughColon s else s

/-- Membership in the strings.IndexAny character set "-+~" of getVersion. -/
def isSuffixMark (c : Char) : Bool := decide (c = '-') || decide (c = '+') || decide (c = '~')

/-- Step 2 of getVersion: keep the prefix before the first occurrence of
any of '-', '+', '~' (the Go code takes version[:dashIndex] when
strings.IndexAny finds one, and leaves the string alone otherwise;
both cases coincide with takeWhile). -/
def stripSuffix (s : Str) : Str := s.takeWhile (fun c => !isSuffixMark c)

/-- Step 4 of getVersion, per segment: the inner Go loop truncates the
segment at its first non-digit character (parts[i] = part[:j]) and
leaves it alone when every character is a digit, which is exactly
takeWhile isDigit. -/
def leadingDigits (p : Str) : Str := p.takeWhile isDigit

/-- Step 5 of getVersion, per segment: the Go loop scans for the first
character that is not '0' and keeps the segment from there on
(parts[i] = part[j:]); when every character is '0' (including the
empty segment) the loop never fires and the segment is unchanged. -/
def stripLeadingZeros (p : Str) : Str :=
  if p.all (fun c => decide (c = '0')) then p else p.dropWhile (fun c => decide (c = '0'))

/-- Step 6 of getVersion: append "0" segments up to three, or keep only
the first three. -/
def padTrim3 (ps : List Str) : List Str :=
  if ps.length < 3 then ps ++ List.replicate (3 - ps.length) ['0'] else ps.take 3

/-- The segment list produced by getVersion just before the final join. -/
def coreParts (s : Str) : List Str :=
  padTrim3 (((splitOnChar '.' (stripSuffix (stripEpoch s))).map leadingDigits).map stripLeadingZeros)

/-- Translation of strings.Join(parts, ".") restricted to the shape used
in getVersion. -/
def joinWith (sep : Char) : List Str → Str
  | [] => []
  | [p] => p
  | p :: q :: ps => p ++ sep :: joinWith sep (q :: ps)

/-- Translation of getVersion (internal/packages.go): epoch strip, suffix
strip, split on '.', per-segment digit truncation, per-segment leading
zero handling, arity normalization to three segments, join with '.'. -/
def getVersion (version : Str) : Str := joinWith '.' (coreParts version)

/-- The package map built by getPackages. Go's built-in map is modelled
as an association list with unique keys; see mapInsert and mapLookup. -/
abbrev PackageVersionMap := List (Str × Str)

/-- Go map assignment packages[k] = v: any existing binding of k is
replaced, so the model removes old bindings of k and appends (k, v). -/
def mapInsert (m : PackageVersionMap) (k v : Str) : PackageVersionMap :=
  m.filter (fun e => decide (e.1 ≠ k)) ++ [(k, v)]

/-- Go map read packages[k]. -/
def mapLookup (m : PackageVersionMap) (k : Str) : Option Str :=
  match m with
  | [] => none
  | e :: rest => if e.1 = k then some e.2 else mapLookup rest k

/-- Number of bindings of key k present in the map. -/
def countKey (m : PackageVersionMap) (k : Str) : Nat :=
  m.countP (fun e => decide (e.1 = k))

/-- One iteration of the line loop of getPackages: empty lines are
skipped, lines whose strings.Split on a space yields other than two
parts are skipped with a warning, and otherwise parts[0] is bound to
getVersion(parts[1]). -/
def processLine (m : PackageVersionMap) (line : Str) : PackageVersionMap :=
  if line.length = 0 then m
  else
    if (splitOnChar ' ' line).length = 2 then
      mapInsert m (splitOnChar ' ' line).headI (getVersion (splitOnChar ' ' line).tail.headI)
    else m

/-- The fold of processLine over a list of lines, starting from map m. -/
def getPackagesFromLines (m : PackageVersionMap) (ls : List Str) : PackageVersionMap :=
  ls.foldl processLine m

/-- Translation of getPackages (internal/packages.go): split the raw
text on newlines and process each line in order into a fresh map. -/
def getPackages (packageData : Str) : PackageVersionMap :=
  getPackagesFromLines [] (splitOnChar '\n' packageData)

/-- The key that a line binds in the map, if the line is not skipped. -/
def lineKey (line : Str) : Option Str :=
  if line.length = 0 then none
  else if (splitOnChar ' ' line).length = 2 then some (splitOnChar ' ' line).headI
  else none

/-- Translation of GetInstalledPackages (internal/packages.go). The
external dpkg-query invocation is modelled by the observable outcome of
dpkgCmd.Run(): runErr = some e when the process failed (non-zero exit,
e the run error text), none on success, together with the captured
standard output. On failure the Go function returns a nil map and the
wrapped error; on success it returns getPackages of the output. -/
def GetInstalledPackages (runErr : Option Str) (stdout : Str) : Except Str PackageVersionMap :=
  match runErr with
  | some e => Except.error (strOf "error running dpkg-query: " ++ e)
  | none => Except.ok (getPackages stdout)

/-- Decides the spec pattern of canonical versions: three dot-separated
components, each a nonempty run of digits. -/
def matchesStrict (s : Str) : Bool :=
  decide ((splitOnChar '.' s).length = 3) &&
    (splitOnChar '.' s).all (fun p => !p.isEmpty && p.all isDigit)

/-- Decides the weaker shape actually guaranteed by the code: three
dot-separated components, each a possibly empty run of digits. -/
def matchesLoose (s : Str) : Bool :=
  decide ((splitOnChar '.' s).length = 3) &&
    (splitOnChar '.' s).all (fun p => p.all isDigit)

/-- Canonical form of the spec: three nonempty all-digit components with
no leading zeros (a component may be exactly "0"). -/
def canonicalForm (x : Str) : Prop :=
  (splitOnChar '.' x).length = 3 ∧
    ∀ p ∈ splitOnChar '.' x, p ≠ [] ∧ p.all isDigit = true ∧ (p = ['0'] ∨ p.head? ≠ some '0')

instance decCanonicalForm (x : Str) : Decidable (canonicalForm x) := by
  unfold canonicalForm
  exact inferInstance

/-- splitOnChar always yields at least one field. -/
lemma splitOnChar_ne_nil (sep : Char) (s : Str) : splitOnChar sep s ≠ [] := by
  cases s with
  | nil => simp [splitOnChar]
  | cons c cs =>
    simp only [splitOnChar]
    cases splitOnChar sep cs with
    | nil => simp
    | cons r rs =>
      by_cases hc : c = sep <;> simp [hc]

/-- Unfolding of splitOnChar on a leading separator. -/
lemma splitOnChar_cons_self (sep : Char) (cs : Str) :
    splitOnChar sep (sep :: cs) = [] :: splitOnChar sep cs := by
  simp only [splitOnChar]
  cases h : splitOnChar sep cs with
  | nil => exact absurd h (splitOnChar_ne_nil sep cs)
  | cons r rs => simp

/-- Unfolding of splitOnChar on a non-separator head character. -/
lemma splitOnChar_cons_ne (sep c : Char) (cs : Str) (hc : c ≠ sep) :
    splitOnChar sep (c :: cs)
      = (c :: (splitOnChar sep cs).headI) :: (splitOnChar sep cs).tail := by
  simp only [splitOnChar]
  cases h : splitOnChar sep cs with
  | nil => exact absurd h (splitOnChar_ne_nil sep cs)
  | cons r rs => simp [hc]

/-- Joining the fields of a split reproduces the original string. -/
lemma joinWith_splitOnChar (sep : Char) (s : Str) :
    joinWith sep (splitOnChar sep s) = s := by
  induction s with
  | nil => rfl
  | cons c cs ih =>
    by_cases hc : c = sep
    · subst hc
      rw [splitOnChar_cons_self]
      cases h : splitOnChar c cs with
      | nil => exact absurd h (splitOnChar_ne_nil c cs)
      | cons r rs =>
        rw [h] at ih
        simp [joinWith, ih]
    · rw [splitOnChar_cons_ne sep c cs hc]
      cases h : splitOnChar sep cs with
      | nil => exact absurd h (splitOnChar_ne_nil sep cs)
      | cons r rs =>
        rw [h] at ih
        cases rs with
        | nil =>
          simp [joinWith] at ih ⊢
          simpa using ih
        | cons t ts =>
          simp [joinWith, List.headI, List.tail] at ih ⊢
          simpa using ih

/-- A string free of the separator splits into the single field it is. -/
lemma splitOnChar_of_not_mem (sep : Char) (s : Str) (h : sep ∉ s) :
    splitOnChar sep s = [s] := by
  induction s with
  | nil => rfl
  | cons c cs ih =>
    have hc : c ≠ sep := fun hce => h (hce ▸ List.mem_cons_self c cs)
    have hcs : sep ∉ cs := fun hm => h (List.mem_cons_of_mem c hm)
    rw [splitOnChar_cons_ne sep c cs hc, ih hcs]
    simp [List.headI, List.tail]

/-- Splitting past a separator-free field. -/
lemma splitOnChar_append_sep (sep : Char) (p rest : Str) (h : sep ∉ p) :
    splitOnChar sep (p ++ sep :: rest) = p :: splitOnChar sep rest := by
  induction p with
  | nil => simpa using splitOnChar_cons_self sep rest
  | cons c p' ih =>
    have hc : c ≠ sep := fun hce => h (hce ▸ List.mem_cons_self c p')
    have hp' : sep ∉ p' := fun hm => h (List.mem_cons_of_mem c hm)
    have : splitOnChar sep (p' ++ sep :: rest) = p' :: splitOnChar sep rest := ih hp'
    rw [List.cons_append, splitOnChar_cons_ne sep c _ hc, this]
    simp [List.headI, List.tail]

/-- Splitting the join of separator-free fields recovers the fields. -/
lemma splitOnChar_joinWith (sep : Char) (ls : List Str) (hne : ls ≠ [])
    (h : ∀ l ∈ ls, sep ∉ l) :
    splitOnChar sep (joinWith sep ls) = ls := by
  induction ls with
  | nil => exact absurd rfl hne
  | cons l ts ih =>
    cases ts with
    | nil =>
      simp only [joinWith]
      exact splitOnChar_of_not_mem sep l (h l (List.mem_cons_self l []))
    | cons t ts' =>
      have h1 : sep ∉ l := h l (List.mem_cons_self l (t :: ts'))
      have h2 : ∀ x ∈ t :: ts', sep ∉ x := fun x hx => h x (List.mem_cons_of_mem l hx)
      simp only [joinWith]
      rw [splitOnChar_append_sep sep l _ h1, ih (by simp) h2]

/-- The number of fields is one more than the number of separators. -/
lemma length_splitOnChar (sep : Char) (s : Str) :
    (splitOnChar sep s).length = s.count sep + 1 := by
  induction s with
  | nil => simp [splitOnChar]
  | cons c cs ih =>
    by_cases hc : c = sep
    · subst hc
      rw [splitOnChar_cons_self]
      simp [List.count_cons, ih]
    · rw [splitOnChar_cons_ne sep c cs hc]
      cases h : splitOnChar sep cs with
      | nil => exact absurd h (splitOnChar_ne_nil sep cs)
      | cons r rs =>
        rw [h] at ih
        simp only [List.length_cons] at ih
        simp [List.count_cons, hc, List.headI, List.tail, ih]

/-- Every character of a join is the separator or lies in some field. -/
lemma mem_joinWith (sep : Char) (ls : List Str) (c : Char)
    (h : c ∈ joinWith sep ls) : c = sep ∨ ∃ p ∈ ls, c ∈ p := by
  induction ls with
  | nil => simp [joinWith] at h
  | cons l ts ih =>
    cases ts with
    | nil =>
      right
      exact ⟨l, List.mem_cons_self l [], by simpa [joinWith] using h⟩
    | cons t ts' =>
      simp only [joinWith, List.mem_append, List.mem_cons] at h
      rcases h with h | h | h
      · exact Or.inr ⟨l, List.mem_cons_self l _, h⟩
      · exact Or.inl h
      · rcases ih h with hsep | ⟨p, hp, hcp⟩
        · exact Or.inl hsep
        · exact Or.inr ⟨p, List.mem_cons_of_mem l hp, hcp⟩

/-- Arity normalization always yields exactly three segments. -/
lemma length_padTrim3 (ps : List Str) : (padTrim3 ps).length = 3 := by
  unfold padTrim3
  by_cases h : ps.length < 3
  · simp only [h, if_true, List.length_append, List.length_replicate]
    omega
  · simp only [h, if_false, List.length_take]
    omega

/-- Segments after arity normalization come from the input or are "0". -/
lemma mem_padTrim3 (ps : List Str) (p : Str) (h : p ∈ padTrim3 ps) :
    p ∈ ps ∨ p = ['0'] := by
  unfold padTrim3 at h
  by_cases hl : ps.length < 3
  · simp only [hl, if_true, List.mem_append] at h
    rcases h with h | h
    · exact Or.inl h
    · exact Or.inr (List.eq_of_mem_replicate h)
  · simp only [hl, if_false] at h
    exact Or.inl (List.mem_of_mem_take h)

/-- Digit truncation yields a run of digits. -/
lemma all_isDigit_leadingDigits (r : Str) : (leadingDigits r).all isDigit = true := by
  rw [leadingDigits, List.all_eq_true]
  intro c hc
  exact List.mem_takeWhile_imp hc

/-- The leading-zero pass keeps segments inside the digit alphabet. -/
lemma all_isDigit_stripLeadingZeros (q : Str) (hq : q.all isDigit = true) :
    (stripLeadingZeros q).all isDigit = true := by
  unfold stripLeadingZeros
  by_cases h : q.all (fun c => decide (c = '0')) = true
  · simp only [h, if_true]
    exact hq
  · simp only [h, if_false]
    rw [List.all_eq_true] at hq ⊢
    intro c hc
    exact hq c ((List.dropWhile_sublist _).subset hc)

/-- The head surviving a dropWhile falsifies the dropped predicate. -/
lemma head?_dropWhile_not (p : Char → Bool) (l : Str) (a : Char)
    (h : (l.dropWhile p).head? = some a) : p a = false := by
  induction l with
  | nil => simp [List.dropWhile] at h
  | cons c cs ih =>
    by_cases hc : p c = true
    · rw [List.dropWhile_cons, if_pos hc] at h
      exact ih h
    · rw [List.dropWhile_cons, if_neg hc] at h
      simp only [List.head?_cons, Option.some.injEq] at h
      subst h
      exact Bool.not_eq_true _ |>.mp hc

/-- A segment leaving the leading-zero pass is all zeros or does not
start with a zero. -/
lemma stripLeadingZeros_zeros (q : Str) :
    (stripLeadingZeros q).all (fun c => decide (c = '0')) = true
      ∨ (stripLeadingZeros q).head? ≠ some '0' := by
  unfold stripLeadingZeros
  by_cases h : q.all (fun c => decide (c = '0')) = true
  · rw [if_pos h]
    exact Or.inl h
  · rw [if_neg h]
    right
    intro hh
    have hf := head?_dropWhile_not _ q '0' hh
    simp at hf

/-- Every segment of the normalizer output is a run of digits. -/
lemma all_isDigit_of_mem_coreParts (s : Str) (p : Str) (h : p ∈ coreParts s) :
    p.all isDigit = true := by
  unfold coreParts at h
  rcases mem_padTrim3 _ _ h with hm | rfl
  · rcases List.mem_map.1 hm with ⟨q, hq, rfl⟩
    rcases List.mem_map.1 hq with ⟨r, _, rfl⟩
    exact all_isDigit_stripLeadingZeros _ (all_isDigit_leadingDigits r)
  · decide

/-- Every segment of the normalizer output is all zeros or does not
start with a zero. -/
lemma coreParts_zeros (s : Str) (p : Str) (h : p ∈ coreParts s) :
    p.all (fun c => decide (c = '0')) = true ∨ p.head? ≠ some '0' := by
  unfold coreParts at h
  rcases mem_padTrim3 _ _ h with hm | rfl
  · rcases List.mem_map.1 hm with ⟨q, _, rfl⟩
    exact stripLeadingZeros_zeros q
  · left
    decide

/-- Segments of the normalizer output never contain a dot. -/
lemma not_dot_mem_coreParts (s p : Str) (h : p ∈ coreParts s) : '.' ∉ p := by
  intro hd
  have hall := all_isDigit_of_mem_coreParts s p h
  rw [List.all_eq_true] at hall
  exact absurd (hall '.' hd) (by decide)

/-- The normalizer always produces exactly three segments. -/
lemma length_coreParts (s : Str) : (coreParts s).length = 3 :=
  length_padTrim3 _

lemma coreParts_ne_nil (s : Str) : coreParts s ≠ [] := by
  intro h
  have h3 := length_coreParts s
  rw [h] at h3
  simp at h3

/-- Splitting the normalizer output on dots recovers its segment list. -/
lemma splitOnChar_getVersion (s : Str) :
    splitOnChar '.' (getVersion s) = coreParts s := by
  unfold getVersion
  exact splitOnChar_joinWith '.' (coreParts s) (coreParts_ne_nil s)
    (fun p hp => not_dot_mem_coreParts s p hp)

/-- The normalizer output always has the loose three-component shape. -/
lemma matchesLoose_getVersion (s : Str) : matchesLoose (getVersion s) = true := by
  unfold matchesLoose
  rw [splitOnChar_getVersion, length_coreParts]
  simp only [decide_eq_true_eq, Bool.and_eq_true, List.all_eq_true]
  exact ⟨by decide, fun p hp => List.all_eq_true.mp (all_isDigit_of_mem_coreParts s p hp)⟩

/-- The normalizer output contains exactly two dots. -/
lemma count_dot_getVersion (s : Str) : (getVersion s).count '.' = 2 := by
  have h := length_splitOnChar '.' (getVersion s)
  rw [splitOnChar_getVersion, length_coreParts] at h
  omega

/-- Characters of a canonical version are dots or digits. -/
lemma mem_canonical_chars (x : Str) (h : canonicalForm x) (c : Char) (hc : c ∈ x) :
    c = '.' ∨ isDigit c = true := by
  obtain ⟨_, hcomp⟩ := h
  have hx : joinWith '.' (splitOnChar '.' x) = x := joinWith_splitOnChar '.' x
  rw [← hx] at hc
  rcases mem_joinWith '.' _ c hc with h1 | ⟨p, hp, hcp⟩
  · exact Or.inl h1
  · right
    have hall := (hcomp p hp).2.1
    rw [List.all_eq_true] at hall
    exact hall c hcp

/-- Digits are not suffix markers. -/
lemma isSuffixMark_eq_false_of_isDigit (c : Char) (h : isDigit c = true) :
    isSuffixMark c = false := by
  unfold isDigit at h
  simp only [Bool.and_eq_true, decide_eq_true_eq] at h
  unfold isSuffixMark
  simp only [Bool.or_eq_false_iff, decide_eq_false_iff_not]
  refine ⟨⟨?_, ?_⟩, ?_⟩ <;> rintro rfl
  · exact absurd h.1 (by decide)
  · exact absurd h.1 (by decide)
  · exact absurd h.2 (by decide)

/-- The epoch strip leaves a canonical version unchanged. -/
lemma stripEpoch_canonical (x : Str) (h : canonicalForm x) : stripEpoch x = x := by
  have hn : ':' ∉ x := by
    intro hc
    rcases mem_canonical_chars x h ':' hc with h1 | h1
    · exact absurd h1 (by decide)
    · exact absurd h1 (by decide)
  unfold stripEpoch
  rw [if_neg hn]

/-- The suffix strip leaves a canonical version unchanged. -/
lemma stripSuffix_canonical (x : Str) (h : canonicalForm x) : stripSuffix x = x := by
  unfold stripSuffix
  apply List.takeWhile_eq_self_iff.mpr
  intro c hc
  rcases mem_canonical_chars x h c hc with h1 | h1
  · subst h1
    decide
  · simp [isSuffixMark_eq_false_of_isDigit c h1]

/-- Digit truncation leaves an all-digit segment unchanged. -/
lemma leadingDigits_of_all (p : Str) (h : p.all isDigit = true) : leadingDigits p = p := by
  unfold leadingDigits
  exact List.takeWhile_eq_self_iff.mpr (List.all_eq_true.mp h)

/-- The leading-zero pass leaves a zero-free-headed or "0" segment
unchanged. -/
lemma stripLeadingZeros_canonical (p : Str)
    (hz : p = ['0'] ∨ p.head? ≠ some '0') : stripLeadingZeros p = p := by
  rcases hz with rfl | hh
  · decide
  · unfold stripLeadingZeros
    by_cases hall : p.all (fun c => decide (c = '0')) = true
    · rw [if_pos hall]
    · rw [if_neg hall]
      cases p with
      | nil => rfl
      | cons c cs =>
        rw [List.dropWhile_cons, if_neg]
        intro hc
        rw [decide_eq_true_eq] at hc
        subst hc
        exact hh rfl

/-- Arity normalization leaves a three-segment list unchanged. -/
lemma padTrim3_of_length_three (ps : List Str) (h : ps.length = 3) : padTrim3 ps = ps := by
  unfold padTrim3
  rw [if_neg (by omega), ← h]
  exact List.take_length ps

/-- Mapping a function that fixes every element fixes the list. -/
lemma map_id_of_mem {f : Str → Str} (l : List Str) (h : ∀ x ∈ l, f x = x) :
    l.map f = l := by
  induction l with
  | nil => rfl
  | cons a t ih =>
    simp only [List.map_cons, h a (List.mem_cons_self a t),
      ih (fun x hx => h x (List.mem_cons_of_mem a hx))]

/-- The normalizer fixes every canonical version. -/
lemma getVersion_canonical (x : Str) (h : canonicalForm x) : getVersion x = x := by
  have hepoch := stripEpoch_canonical x h
  have hsuffix := stripSuffix_canonical x h
  obtain ⟨hlen, hcomp⟩ := h
  unfold getVersion coreParts
  rw [hepoch, hsuffix,
    map_id_of_mem _ (fun p hp => leadingDigits_of_all p (hcomp p hp).2.1),
    map_id_of_mem _ (fun p hp => stripLeadingZeros_canonical p (hcomp p hp).2.2),
    padTrim3_of_length_three _ hlen]
  exact joinWith_splitOnChar '.' x

/-- Unfolding of mapLookup on a nonempty map. -/
lemma mapLookup_cons (e : Str × Str) (rest : PackageVersionMap) (k : Str) :
    mapLookup (e :: rest) k = if e.1 = k then some e.2 else mapLookup rest k := rfl

/-- Reading back a key just written returns the written value. -/
lemma mapLookup_insert_same (m : PackageVersionMap) (k v : Str) :
    mapLookup (mapInsert m k v) k = some v := by
  induction m with
  | nil => simp [mapInsert, mapLookup_cons, mapLookup]
  | cons e rest ih =>
    unfold mapInsert at ih ⊢
    by_cases he : e.1 = k
    · rw [List.filter_cons, if_neg (by simp [he])]
      exact ih
    · rw [List.filter_cons, if_pos (by simp [he]), List.cons_append,
        mapLookup_cons, if_neg he]
      exact ih

/-- Writing one key does not change reads of another. -/
lemma mapLookup_insert_other (m : PackageVersionMap) (k' v k : Str) (hne : k' ≠ k) :
    mapLookup (mapInsert m k' v) k = mapLookup m k := by
  induction m with
  | nil => simp [mapInsert, mapLookup_cons, mapLookup, hne]
  | cons e rest ih =>
    unfold mapInsert at ih ⊢
    by_cases he : e.1 = k'
    · rw [List.filter_cons, if_neg (by simp [he]), ih,
        mapLookup_cons, if_neg (by rw [he]; exact hne)]
    · rw [List.filter_cons, if_pos (by simp [he]), List.cons_append,
        mapLookup_cons, mapLookup_cons, ih]

/-- A write leaves exactly one binding of the written key. -/
lemma countKey_insert_same (m : PackageVersionMap) (k v : Str) :
    countKey (mapInsert m k v) k = 1 := by
  unfold countKey mapInsert
  rw [List.countP_append]
  have h1 : List.countP (fun e => decide (e.1 = k)) (m.filter fun e => decide (e.1 ≠ k)) = 0 := by
    rw [List.countP_eq_zero]
    intro e he
    have h2 := List.of_mem_filter he
    simp only [decide_eq_true_eq] at h2 ⊢
    exact h2
  rw [h1]
  simp [List.countP_cons]

/-- Writing one key does not change the binding count of another. -/
lemma countKey_insert_other (m : PackageVersionMap) (k' v k : Str) (hne : k' ≠ k) :
    countKey (mapInsert m k' v) k = countKey m k := by
  unfold countKey mapInsert
  induction m with
  | nil => simp [List.countP_cons, hne]
  | cons e rest ih =>
    rw [List.filter_cons]
    by_cases he : e.1 = k'
    · rw [if_neg (by simp [he]), ih]
      simp [List.countP_cons, he, hne]
    · rw [if_pos (by simp [he]), List.cons_append]
      simp only [List.countP_cons]
      rw [ih]

/-- Lines that are empty or do not split into two parts are skipped. -/
lemma processLine_skip (m : PackageVersionMap) (line : Str)
    (h : line = [] ∨ (splitOnChar ' ' line).length ≠ 2) :
    processLine m line = m := by
  unfold processLine
  rcases h with rfl | h
  · simp
  · by_cases h0 : line.length = 0
    · rw [if_pos h0]
    · rw [if_neg h0, if_neg h]

/-- A well-formed line "name rawVersion" (no other spaces) binds name to
the normalized rawVersion. -/
lemma processLine_insert (m : PackageVersionMap) (name v : Str)
    (hn : ' ' ∉ name) (hv : ' ' ∉ v) :
    processLine m (name ++ ' ' :: v) = mapInsert m name (getVersion v) := by
  have hsplit : splitOnChar ' ' (name ++ ' ' :: v) = [name, v] := by
    rw [splitOnChar_append_sep ' ' name v hn, splitOnChar_of_not_mem ' ' v hv]
  unfold processLine
  rw [if_neg (by simp only [List.length_append, List.length_cons]; omega), hsplit,
    if_pos (by simp)]
  rfl

/-- A line that does not bind k leaves both the binding count and the
read of k unchanged. -/
lemma processLine_preserve (m : PackageVersionMap) (line k : Str)
    (h : lineKey line ≠ some k) :
    countKey (processLine m line) k = countKey m k
      ∧ mapLookup (processLine m line) k = mapLookup m k := by
  unfold processLine
  by_cases h0 : line.length = 0
  · rw [if_pos h0]
    exact ⟨rfl, rfl⟩
  · by_cases h2 : (splitOnChar ' ' line).length = 2
    · rw [if_neg h0, if_pos h2]
      have hk : (splitOnChar ' ' line).headI ≠ k := by
        intro he
        apply h
        unfold lineKey
        rw [if_neg h0, if_pos h2, he]
      exact ⟨countKey_insert_other _ _ _ _ hk, mapLookup_insert_other _ _ _ _ hk⟩
    · rw [if_neg h0, if_neg h2]
      exact ⟨rfl, rfl⟩

/-- Folding lines none of which binds k preserves the count and read of k. -/
lemma getPackagesFromLines_preserve (k : Str) (ls : List Str) :
    ∀ m : PackageVersionMap, (∀ l ∈ ls, lineKey l ≠ some k) →
      countKey (getPackagesFromLines m ls) k = countKey m k
        ∧ mapLookup (getPackagesFromLines m ls) k = mapLookup m k := by
  induction ls with
  | nil =>
    intro m _
    exact ⟨rfl, rfl⟩
  | cons l ts ih =>
    intro m h
    have h1 := processLine_preserve m l k (h l (List.mem_cons_self l ts))
    have h2 := ih (processLine m l) (fun x hx => h x (List.mem_cons_of_mem l hx))
    unfold getPackagesFromLines at h2 ⊢
    rw [List.foldl_cons]
    exact ⟨h2.1.trans h1.1, h2.2.trans h1.2⟩

/-- Dropping a skipped line anywhere in the input changes nothing. -/
lemma getPackagesFromLines_skip (m : PackageVersionMap) (ls1 ls2 : List Str) (l : Str)
    (h : l = [] ∨ (splitOnChar ' ' l).length ≠ 2) :
    getPackagesFromLines m (ls1 ++ l :: ls2) = getPackagesFromLines m (ls1 ++ ls2) := by
  unfold getPackagesFromLines
  rw [List.foldl_append, List.foldl_append, List.foldl_cons, processLine_skip _ _ h]

/-- Map entries are old entries or the written pair. -/
lemma mem_mapInsert (m : PackageVersionMap) (k v : Str) (e : Str × Str)
    (h : e ∈ mapInsert m k v) : e ∈ m ∨ e = (k, v) := by
  unfold mapInsert at h
  rcases List.mem_append.1 h with h | h
  · exact Or.inl (List.mem_of_mem_filter h)
  · simp only [List.mem_singleton] at h
    exact Or.inr h

/-- Any value added by a line is a normalizer output. -/
lemma mem_processLine (m : PackageVersionMap) (line : Str) (e : Str × Str)
    (h : e ∈ processLine m line) : e ∈ m ∨ ∃ raw, e.2 = getVersion raw := by
  unfold processLine at h
  by_cases h0 : line.length = 0
  · rw [if_pos h0] at h
    exact Or.inl h
  · by_cases h2 : (splitOnChar ' ' line).length = 2
    · rw [if_neg h0, if_pos h2] at h
      rcases mem_mapInsert _ _ _ _ h with h | he
      · exact Or.inl h
      · right
        exact ⟨_, by rw [he]⟩
    · rw [if_neg h0, if_neg h2] at h
      exact Or.inl h

/-- Any value in the folded map is an initial value or a normalizer
output. -/
lemma mem_getPackagesFromLines (ls : List Str) :
    ∀ (m : PackageVersionMap) (e : Str × Str), e ∈ getPackagesFromLines m ls →
      e ∈ m ∨ ∃ raw, e.2 = getVersion raw := by
  induction ls with
  | nil =>
    intro m e h
    exact Or.inl h
  | cons l ts ih =>
    intro m e h
    unfold getPackagesFromLines at h
    rw [List.foldl_cons] at h
    rcases ih (processLine m l) e h with h | h
    · exact mem_processLine m l e h
    · exact Or.inr h

/-- Every value of the parsed map is a normalizer output. -/
lemma values_getPackages (s : Str) (e : Str × Str) (h : e ∈ getPackages s) :
    ∃ raw, e.2 = getVersion raw := by
  unfold getPackages at h
  rcases mem_getPackagesFromLines _ _ _ h with h | h
  · simp at h
  · exact h

/-- Newlines do not occur in a well-formed line built from
newline-free name and version. -/
lemma newline_not_mem_line (name v : Str) (hnn : '\n' ∉ name) (hnv : '\n' ∉ v) :
    '\n' ∉ (name ++ ' ' :: v : Str) := by
  intro h
  rcases List.mem_append.1 h with h | h
  · exact hnn h
  · rcases List.mem_cons.1 h with h | h
    · exact absurd h (by decide)
    · exact hnv h


/-- Parsing text in which two well-formed lines bind the same name (and
no other line binds it) leaves exactly one binding of that name, holding
the normalized version of the later line. -/
theorem getPackages_last_wins (pre mid post : List Str) (name v1 v2 : Str)
    (hn : ' ' ∉ name) (hv1 : ' ' ∉ v1) (hv2 : ' ' ∉ v2)
    (hnn : '\n' ∉ name) (hnv1 : '\n' ∉ v1) (hnv2 : '\n' ∉ v2)
    (hothers : ∀ l ∈ pre ++ mid ++ post, '\n' ∉ l ∧ lineKey l ≠ some name) :
    countKey (getPackages (joinWith '\n'
        (pre ++ (name ++ ' ' :: v1) :: mid ++ (name ++ ' ' :: v2) :: post))) name = 1
      ∧ mapLookup (getPackages (joinWith '\n'
          (pre ++ (name ++ ' ' :: v1) :: mid ++ (name ++ ' ' :: v2) :: post))) name
        = some (getVersion v2) := by
  have hmem_pre : ∀ l ∈ pre, l ∈ pre ++ mid ++ post :=
    fun l hl => List.mem_append.2 (Or.inl (List.mem_append.2 (Or.inl hl)))
  have hmem_mid : ∀ l ∈ mid, l ∈ pre ++ mid ++ post :=
    fun l hl => List.mem_append.2 (Or.inl (List.mem_append.2 (Or.inr hl)))
  have hmem_post : ∀ l ∈ post, l ∈ pre ++ mid ++ post :=
    fun l hl => List.mem_append.2 (Or.inr hl)
  have hall : ∀ l ∈ pre ++ (name ++ ' ' :: v1) :: mid ++ (name ++ ' ' :: v2) :: post,
      '\n' ∉ l := by
    intro l hl
    rcases List.mem_append.1 hl with hl | hl
    · rcases List.mem_append.1 hl with hl | hl
      · exact (hothers l (hmem_pre l hl)).1
      · rcases List.mem_cons.1 hl with rfl | hl
        · exact newline_not_mem_line name v1 hnn hnv1
        · exact (hothers l (hmem_mid l hl)).1
    · rcases List.mem_cons.1 hl with rfl | hl
      · exact newline_not_mem_line name v2 hnn hnv2
      · exact (hothers l (hmem_post l hl)).1
  have hLne : (pre ++ (name ++ ' ' :: v1) :: mid ++ (name ++ ' ' :: v2) :: post) ≠ [] := by
    intro h
    have hlen := congrArg List.length h
    simp only [List.length_append, List.length_cons, List.length_nil] at hlen
    omega
  unfold getPackages
  rw [splitOnChar_joinWith '\n' _ hLne hall]
  unfold getPackagesFromLines
  rw [List.foldl_append, List.foldl_cons, processLine_insert _ name v2 hn hv2]
  have hpost : ∀ l ∈ post, lineKey l ≠ some name :=
    fun l hl => (hothers l (hmem_post l hl)).2
  have hpres := getPackagesFromLines_preserve name post
    (mapInsert (List.foldl processLine [] (pre ++ (name ++ ' ' :: v1) :: mid))
      name (getVersion v2)) hpost
  exact ⟨hpres.1.trans (countKey_insert_same _ name (getVersion v2)),
    hpres.2.trans (mapLookup_insert_same _ name (getVersion v2))⟩

/-- C1 (amended): the normalizer is total and always yields three
dot-separated components made only of digits, but a component may be
empty, so the output matches only the looser pattern of three
possibly-empty digit runs rather than the strict one. -/
theorem c1_normalizer_shape (s : Str) : matchesLoose (getVersion s) = true :=
  matchesLoose_getVersion s

/-- C1 counterexample: on input "abc" the normalizer returns ".0.0",
whose first component is empty, so the output does not match the
strict three-nonempty-digit-components pattern. -/
theorem c1_counterexample :
    getVersion (strOf "abc") = strOf ".0.0"
      ∧ matchesStrict (getVersion (strOf "abc")) = false :=
  ⟨by decide, by decide⟩

/-- C2 (amended): every component of a normalizer output either consists
entirely of zero characters (it is then left as is, e.g. "000") or does
not start with a zero; leading zeros are removed only when the segment
contains some nonzero character. -/
theorem c2_leading_zero_shape (s : Str) :
    (splitOnChar '.' (getVersion s)).all
      (fun p => p.all (fun c => decide (c = '0')) || !(decide (p.head? = some '0'))) = true := by
  rw [splitOnChar_getVersion, List.all_eq_true]
  intro p hp
  rcases coreParts_zeros s p hp with h | h
  · simp [h]
  · simp [h]

/-- C2 counterexample: getVersion "000" = "000.0.0"; its first component
"000" both starts with a zero and differs from "0", so not every
component is "0" or a digit string without a leading zero. -/
theorem c2_counterexample :
    getVersion (strOf "000") = strOf "000.0.0"
      ∧ (splitOnChar '.' (getVersion (strOf "000"))).all
          (fun p => p == strOf "0" || !(decide (p.head? = some '0'))) = false :=
  ⟨by decide, by decide⟩

/-- C3 (amended): the parser splits each line on every space and keeps
it only when exactly two tokens result; a line "name rawVersion" whose
tokens contain no further space yields the entry name ↦
getVersion rawVersion. -/
theorem c3_single_space_line (name v : Str) (hn : ' ' ∉ name) (hv : ' ' ∉ v)
    (hnn : '\n' ∉ name) (hnv : '\n' ∉ v) :
    getPackages (name ++ ' ' :: v) = [(name, getVersion v)] := by
  unfold getPackages
  rw [splitOnChar_of_not_mem '\n' _ (newline_not_mem_line name v hnn hnv)]
  unfold getPackagesFromLines
  rw [List.foldl_cons, List.foldl_nil, processLine_insert [] name v hn hv]
  rfl

/-- C3 witness: the theorem applied to the line "wget 1.20.3". -/
theorem c3_witness :
    getPackages (strOf "wget" ++ ' ' :: strOf "1.20.3")
      = [(strOf "wget", getVersion (strOf "1.20.3"))] :=
  c3_single_space_line (strOf "wget") (strOf "1.20.3")
    (by decide) (by decide) (by decide) (by decide)

/-- C3 counterexample: the line "a b c" contains a space, yet the parser
splits it into three tokens and skips it, so no entry is stored. -/
theorem c3_counterexample :
    getPackages (strOf "a b c") = []
      ∧ mapLookup (getPackages (strOf "a b c")) (strOf "a") = none :=
  ⟨by decide, by decide⟩

/-- C4: the parser is total — on empty input it returns the empty map —
and a line that is empty or does not split into exactly two tokens is
skipped without affecting the parse of the surrounding lines. -/
theorem c4_parser_total_skip :
    getPackages (strOf "") = []
      ∧ ∀ (m : PackageVersionMap) (ls1 ls2 : List Str) (l : Str),
          (l = [] ∨ (splitOnChar ' ' l).length ≠ 2) →
          getPackagesFromLines m (ls1 ++ l :: ls2) = getPackagesFromLines m (ls1 ++ ls2) :=
  ⟨by decide, fun m ls1 ls2 l h => getPackagesFromLines_skip m ls1 ls2 l h⟩

/-- C4 witness: skipping the malformed line "badline" between two
well-formed lines leaves the parse of those lines unchanged. -/
theorem c4_witness :
    getPackagesFromLines [] ([strOf "wget 1.20.3"] ++ strOf "badline" :: [strOf "acl 2.3.2-1build1.1"])
      = getPackagesFromLines [] ([strOf "wget 1.20.3"] ++ [strOf "acl 2.3.2-1build1.1"]) :=
  c4_parser_total_skip.2 [] [strOf "wget 1.20.3"] [strOf "acl 2.3.2-1build1.1"]
    (strOf "badline") (Or.inr (by decide))

/-- C5: when a text contains two well-formed lines for the same package
name (and no other line binds that name), the resulting map holds
exactly one binding for that name, whose value is the normalized
version of the later line. -/
theorem c5_last_wins (pre mid post : List Str) (name v1 v2 : Str)
    (hn : ' ' ∉ name) (hv1 : ' ' ∉ v1) (hv2 : ' ' ∉ v2)
    (hnn : '\n' ∉ name) (hnv1 : '\n' ∉ v1) (hnv2 : '\n' ∉ v2)
    (hothers : ∀ l ∈ pre ++ mid ++ post, '\n' ∉ l ∧ lineKey l ≠ some name) :
    countKey (getPackages (joinWith '\n'
        (pre ++ (name ++ ' ' :: v1) :: mid ++ (name ++ ' ' :: v2) :: post))) name = 1
      ∧ mapLookup (getPackages (joinWith '\n'
          (pre ++ (name ++ ' ' :: v1) :: mid ++ (name ++ ' ' :: v2) :: post))) name
        = some (getVersion v2) :=
  getPackages_last_wins pre mid post name v1 v2 hn hv1 hv2 hnn hnv1 hnv2 hothers

/-- C5 witness: the theorem applied to the two-line text
"wget 1.0.0\nwget 2.0.0". -/
theorem c5_witness :
    countKey (getPackages (joinWith '\n'
        ([] ++ (strOf "wget" ++ ' ' :: strOf "1.0.0") :: [] ++ (strOf "wget" ++ ' ' :: strOf "2.0.0") :: []))) (strOf "wget") = 1
      ∧ mapLookup (getPackages (joinWith '\n'
          ([] ++ (strOf "wget" ++ ' ' :: strOf "1.0.0") :: [] ++ (strOf "wget" ++ ' ' :: strOf "2.0.0") :: []))) (strOf "wget")
        = some (getVersion (strOf "2.0.0")) :=
  c5_last_wins [] [] [] (strOf "wget") (strOf "1.0.0") (strOf "2.0.0")
    (by decide) (by decide) (by decide) (by decide) (by decide) (by decide)
    (by intro l hl; simp at hl)

/-- C6 (amended): when the external query fails, the collector returns
the wrapped run error and no package map at all; when it succeeds, every
value of the returned map has the three-digit-run shape of normalizer
outputs (possibly with empty components, so not necessarily the strict
canonical pattern). -/
theorem c6_collector_shape (e stdout : Str) :
    GetInstalledPackages (some e) stdout
        = Except.error (strOf "error running dpkg-query: " ++ e)
      ∧ ∀ m, GetInstalledPackages none stdout = Except.ok m →
          ∀ p ∈ m, matchesLoose p.2 = true := by
  refine ⟨rfl, ?_⟩
  intro m hm p hp
  have hmeq : m = getPackages stdout := by
    unfold GetInstalledPackages at hm
    exact (Except.ok.inj hm).symm
  subst hmeq
  rcases values_getPackages stdout p hp with ⟨raw, hraw⟩
  rw [hraw]
  exact matchesLoose_getVersion raw

/-- C6 witness: the theorem applied to a successful run whose output is
"pkg abc\n". -/
theorem c6_witness :
    GetInstalledPackages none (strOf "pkg abc\n")
        = Except.ok [(strOf "pkg", strOf ".0.0")]
      ∧ matchesLoose (strOf ".0.0") = true := by
  refine ⟨rfl, ?_⟩
  exact (c6_collector_shape (strOf "boom") (strOf "pkg abc\n")).2
    [(strOf "pkg", strOf ".0.0")] rfl (strOf "pkg", strOf ".0.0")
    (List.mem_singleton.mpr rfl)

/-- C6 counterexample: a successful cycle can return a map whose value
".0.0" does not match the strict canonical pattern, so a cycle can
yield a map containing a malformed version string. -/
theorem c6_counterexample :
    GetInstalledPackages none (strOf "pkg abc\n")
        = Except.ok [(strOf "pkg", strOf ".0.0")]
      ∧ matchesStrict (strOf ".0.0") = false :=
  ⟨rfl, by decide⟩

/-- C7: the normalizer fixes canonical versions, hence it is idempotent
on them. -/
theorem c7_idempotent_on_canonical (x : Str) (h : canonicalForm x) :
    getVersion (getVersion x) = getVersion x := by
  rw [getVersion_canonical x h]
  exact getVersion_canonical x h

/-- C7 witness: the theorem applied to the canonical version "1.2.3". -/
theorem c7_witness :
    canonicalForm (strOf "1.2.3")
      ∧ getVersion (getVersion (strOf "1.2.3")) = getVersion (strOf "1.2.3") :=
  ⟨by decide, c7_idempotent_on_canonical (strOf "1.2.3") (by decide)⟩

/-- C8: epoch removal discards everything up to and including the first
colon before the remaining normalization steps. -/
theorem c8_epoch_removal :
    getVersion (strOf "2:1.2.3") = strOf "1.2.3"
      ∧ getVersion (strOf "1:9.6p1-3ubuntu13.8") = strOf "9.6.0" :=
  ⟨by decide, by decide⟩

/-- C9: parsing "wget 1.20.3\nacl 2.3.2-1build1.1\n" maps wget to
"1.20.3" and acl to the suffix-stripped, unpadded "2.3.2". -/
theorem c9_end_to_end :
    mapLookup (getPackages (strOf "wget 1.20.3\nacl 2.3.2-1build1.1\n")) (strOf "wget")
        = some (strOf "1.20.3")
      ∧ mapLookup (getPackages (strOf "wget 1.20.3\nacl 2.3.2-1build1.1\n")) (strOf "acl")
        = some (strOf "2.3.2") :=
  ⟨by decide, by decide⟩

/-- C10: every normalizer output contains exactly two dots and splits
into three components made only of digits; a segment with no leading
digits yields an empty component (as on input "x.y") rather than "0". -/
theorem c10_output_shape :
    (∀ s : Str, (getVersion s).count '.' = 2
        ∧ (splitOnChar '.' (getVersion s)).all (fun p => p.all isDigit) = true)
      ∧ getVersion (strOf "x.y") = strOf "..0" := by
  refine ⟨fun s => ⟨count_dot_getVersion s, ?_⟩, by decide⟩
  rw [splitOnChar_getVersion, List.all_eq_true]
  intro p hp
  exact all_isDigit_of_mem_coreParts s p hp

end AptPlugin
